import Mathlib

/-!
Verification of the `iterable_extensions` library: a shallow embedding of its
sequence operators over Lean lists, together with proofs of the library's
specified properties.

Sequences are modelled as `List`s (a re-traversable upstream source), a fresh
iterator over a sequence is the list of elements it will yield, and Python's
`ValueError` failures are modelled with `Except`.
-/

namespace IterableExtensions

/-- Error values corresponding to the `ValueError` messages raised by the
library: "Iterable is empty.", "Iterable contains no elements." and
"Iterable contains more than one element.". -/
inductive PyValueError where
  | iterableIsEmpty
  | iterableContainsNoElements
  | moreThanOneElement
deriving DecidableEq, Repr

/-- Embedding of the class `ReusableIterable`: it stores the upstream
`source` and the transform `func`; `__iter__` returns `func source`. -/
structure ReusableIterable (α : Type u) (β : Type v) where
  source : List α
  func : List α → List β

/-- Embedding of one traversal of a `ReusableIterable`: calling `__iter__`
(which evaluates `self._func(self._source)` and mutates nothing) and fully
consuming the resulting iterator.  Returns the elements yielded together with
the state of the wrapper afterwards. -/
def ReusableIterable.traverse (r : ReusableIterable α β) :
    List β × ReusableIterable α β :=
  (r.func r.source, r)

/-- Embedding of Python's `next(iterator)`: an iterator is the list of its
remaining elements; `next` yields the head and the advanced iterator, or
signals `StopIteration` (here: `none`) when exhausted. -/
def pynext : List α → Option (α × List α)
  | [] => none
  | x :: xs => some (x, xs)

/-- Embedding of `_first` from the operator `first`: `next(iter(source))`,
turning `StopIteration` into the empty-iterable error. -/
def first (source : List α) : Except PyValueError α :=
  match pynext source with
  | some (v, _) => .ok v
  | none => .error .iterableIsEmpty

/-- Embedding of `_first_or_none`: like `first` but `StopIteration` yields
`None`. -/
def first_or_none (source : List α) : Option α :=
  match pynext source with
  | some (v, _) => some v
  | none => none

/-- Embedding of the `while True` loop shared by `_last` and `_last_or_none`:
repeatedly call `next`, retaining the most recently seen element, and return
that element once the iterator is exhausted. -/
def lastAux (value : α) : List α → α
  | [] => value
  | v :: it => lastAux v it

/-- Embedding of `_last`: a first `next` (empty iterable is an error), then
the forward scan `lastAux`. -/
def last (source : List α) : Except PyValueError α :=
  match pynext source with
  | some (v, it) => .ok (lastAux v it)
  | none => .error .iterableContainsNoElements

/-- Embedding of `_last_or_none`: like `last` but an empty iterable yields
`None`. -/
def last_or_none (source : List α) : Option α :=
  match pynext source with
  | some (v, it) => some (lastAux v it)
  | none => none

/-- Embedding of `_single`: take one element (empty iterable is an error),
then peek a second one; if the peek succeeds the iterable has more than one
element. -/
def single (source : List α) : Except PyValueError α :=
  match pynext source with
  | none => .error .iterableIsEmpty
  | some (value, it) =>
    match pynext it with
    | none => .ok value
    | some _ => .error .moreThanOneElement

/-- Embedding of `_single_or_none`: like `single` but an empty iterable
yields `None` instead of an error. -/
def single_or_none (source : List α) : Except PyValueError (Option α) :=
  match pynext source with
  | none => .ok none
  | some (value, it) =>
    match pynext it with
    | none => .ok (some value)
    | some _ => .error .moreThanOneElement

/-- Embedding of the `for` loop of `_count`, with its running total. -/
def countAux (total : Nat) : List α → Nat
  | [] => total
  | _ :: xs => countAux (total + 1) xs

/-- Embedding of `_count`: element-by-element tally starting from `0`. -/
def count (source : List α) : Nat :=
  countAux 0 source

/-- Embedding of the operator `to_list`, i.e. Python's `list(source)`:
materializes the source's elements in order. -/
def to_list (source : List α) : List α :=
  source

/-- Embedding of the generator expression `(x for x in source if
predicate(x))` used by `_where`. -/
def whereGen (predicate : α → Bool) : List α → List α
  | [] => []
  | x :: xs =>
    if predicate x then x :: whereGen predicate xs else whereGen predicate xs

/-- Embedding of `_where`: wraps the source and the filtering generator in a
`ReusableIterable`. -/
def where_ (predicate : α → Bool) (source : List α) : ReusableIterable α α :=
  ⟨source, fun s => whereGen predicate s⟩

/-- Embedding of `_select`: wraps the source and `map(selector, source)` in a
`ReusableIterable`. -/
def select (selector : α → β) (source : List α) : ReusableIterable α β :=
  ⟨source, fun s => s.map selector⟩

/-- Embedding of the generator `_func` inside `_distinct` (the
`unique_everseen` recipe): yield each element not yet in `seen`, adding it to
`seen`.  The `seen` set is modelled by the list of values added so far. -/
def distinctGen [DecidableEq α] (seen : List α) : List α → List α
  | [] => []
  | x :: xs =>
    if x ∈ seen then distinctGen seen xs
    else x :: distinctGen (x :: seen) xs

/-- Embedding of `_distinct`: wraps the source in a `ReusableIterable` whose
transform starts a fresh traversal with an empty `seen` set. -/
def distinct [DecidableEq α] (source : List α) : ReusableIterable α α :=
  ⟨source, fun s => distinctGen [] s⟩

/-- Embedding of one binding step of a Python `dict` comprehension: if the
key is already present its value is updated in place, otherwise the new
binding is appended.  A dict is modelled as its insertion-ordered
association list. -/
def dictInsert [DecidableEq κ] (k : κ) (v : β) : List (κ × β) → List (κ × β)
  | [] => [(k, v)]
  | (k1, v1) :: rest =>
    if k1 = k then (k, v) :: rest else (k1, v1) :: dictInsert k v rest

/-- Embedding of a Python `dict` lookup on the association-list model. -/
def dictLookup [DecidableEq κ] (k : κ) : List (κ × β) → Option β
  | [] => none
  | (k1, v) :: rest => if k1 = k then some v else dictLookup k rest

/-- Embedding of `_to_dictionary_key_element` (the `to_dictionary` overload
with a value selector): `{key_selector(x): element_selector(x) for x in
source}`. -/
def to_dictionary [DecidableEq κ] (key_selector : α → κ) (value_selector : α → β)
    (source : List α) : List (κ × β) :=
  source.foldl (fun d x => dictInsert (key_selector x) (value_selector x) d) []

/-- Embedding of `_to_dictionary_key` (the `to_dictionary` overload without a
value selector): `{key_selector(x): x for x in source}`, the value selector
defaulting to the identity. -/
def to_dictionary_id [DecidableEq κ] (key_selector : α → κ)
    (source : List α) : List (κ × α) :=
  source.foldl (fun d x => dictInsert (key_selector x) x d) []

/-- Insertion step of a stable sort wrt the boolean comparison `le`: the new
element `x` (which precedes the list's elements in the source) is placed
before the first element it compares `le` to, hence before any element with
an equal key. -/
def insertSortedBy (le : α → α → Bool) (x : α) : List α → List α
  | [] => [x]
  | y :: ys => if le x y then x :: y :: ys else y :: insertSortedBy le x ys

/-- Stable sort wrt the boolean comparison `le`, modelling Python's built-in
`sorted` (Timsort), whose documented semantics is a stable sort. -/
def sortBy (le : α → α → Bool) : List α → List α
  | [] => []
  | x :: xs => insertSortedBy le x (sortBy le xs)

/-- Embedding of `_order_by` in the operator `order_by`:
`sorted(source, key=key_selector)`, the stable ascending sort by the
selected key. -/
def order_by [LinearOrder κ] (key_selector : α → κ) (source : List α) : List α :=
  sortBy (fun a b => decide (key_selector a ≤ key_selector b)) source

/-- Embedding of `_order_by` in the operator `order_by_descending`:
`sorted(source, key=key_selector, reverse=True)`.  CPython documents
`reverse=True` as the stable sort under the reversed comparator (ties keep
their original order). -/
def order_by_descending [LinearOrder κ] (key_selector : α → κ)
    (source : List α) : List α :=
  sortBy (fun a b => decide (key_selector b ≤ key_selector a)) source

/-- Embedding of the class `Grouping`: a group key together with the
materialized list (`list(elements)`) of the group's elements. -/
structure Grouping (κ : Type u) (α : Type v) where
  key : κ
  source : List α
deriving DecidableEq

/-- Embedding of the loop of `itertools.groupby` as consumed by `_group_by`
(each group is materialized before the next one is requested): accumulate
the current run of elements whose key equals `k` (held in reverse in `run`),
emitting a `Grouping` whenever the key changes and at the end of the
input. -/
def groupRunsAux [DecidableEq κ] (key : α → κ) (k : κ) (run : List α) :
    List α → List (Grouping κ α)
  | [] => [Grouping.mk k run.reverse]
  | x :: xs =>
    if key x = k then groupRunsAux key k (x :: run) xs
    else Grouping.mk k run.reverse :: groupRunsAux key (key x) [x] xs

/-- Embedding of `itertools.groupby(..., key=key)`: partition a list into
maximal runs of consecutive elements with equal keys, one `Grouping` per
run. -/
def groupRuns [DecidableEq κ] (key : α → κ) : List α → List (Grouping κ α)
  | [] => []
  | x :: xs => groupRunsAux key (key x) [x] xs

/-- Embedding of the generator `_func` inside `_group_by`:
`itertools.groupby(sorted(source, key=key_selector), key=key_selector)`,
yielding one `Grouping` per run of the sorted materialization. -/
def group_byRun [LinearOrder κ] (key_selector : α → κ) (source : List α) :
    List (Grouping κ α) :=
  groupRuns key_selector (order_by key_selector source)

/-- Embedding of `_group_by`: wraps the source and the sort-and-partition
generator in a `ReusableIterable`. -/
def group_by [LinearOrder κ] (key_selector : α → κ) (source : List α) :
    ReusableIterable α (Grouping κ α) :=
  ⟨source, fun s => group_byRun key_selector s⟩

/-- Embedding of a traversal of the `where` generator when the
caller-supplied predicate may raise (modelled with `Except`): the elements
yielded before any failure, together with the failure, if one aborted the
traversal at the element being processed. -/
def whereRun (predicate : α → Except ε Bool) : List α → List α × Option ε
  | [] => ([], none)
  | x :: xs =>
    match predicate x with
    | .error e => ([], some e)
    | .ok b =>
      (if b then x :: (whereRun predicate xs).1 else (whereRun predicate xs).1,
        (whereRun predicate xs).2)

/-- Embedding of a traversal of `map(selector, source)` inside `select` when
the caller-supplied selector may raise (modelled with `Except`): the
transformed elements yielded before any failure, together with the failure,
if one aborted the traversal at the element being processed. -/
def selectRun (selector : α → Except ε β) : List α → List β × Option ε
  | [] => ([], none)
  | x :: xs =>
    match selector x with
    | .error e => ([], some e)
    | .ok y => (y :: (selectRun selector xs).1, (selectRun selector xs).2)

/-! Basic lemmas -/

theorem whereGen_eq_filter (p : α → Bool) (l : List α) :
    whereGen p l = l.filter p := by
  induction l with
  | nil => rfl
  | cons x xs ih =>
    by_cases h : p x <;> simp [whereGen, List.filter, h, ih]

theorem countAux_eq (l : List α) : ∀ t, countAux t l = t + l.length := by
  induction l with
  | nil => intro t; simp [countAux]
  | cons x xs ih =>
    intro t
    simp [countAux, ih, List.length_cons]
    omega

theorem lastAux_eq_getLast (l : List α) :
    ∀ v, lastAux v l = (v :: l).getLast (by simp) := by
  induction l with
  | nil => intro v; simp [lastAux]
  | cons x xs ih =>
    intro v
    rw [lastAux, ih x]
    exact (List.getLast_cons (by simp)).symm

/-! Claim theorems -/

/-- C1: each traversal of a `ReusableIterable` invokes the transform anew on
the original upstream source (first conjunct), does not change the wrapper's
state — i.e. buffers nothing across calls (second conjunct) — and hence any
two traversals of the same wrapper yield the identical list of elements
(third conjunct). -/
theorem reusable_iterable_retraversal (source : List α) (func : List α → List β) :
    (ReusableIterable.mk source func).traverse.1 = func source
    ∧ (ReusableIterable.mk source func).traverse.2 = ReusableIterable.mk source func
    ∧ (ReusableIterable.mk source func).traverse.2.traverse.1
        = (ReusableIterable.mk source func).traverse.1 :=
  ⟨rfl, rfl, rfl⟩

/-- C5: materializing `where predicate` over `S` yields exactly `S.filter
predicate` — the stable sub-sequence (a sublist of `S`, hence in original
source order) of elements satisfying the predicate — and a second traversal
of the same wrapper yields the identical list. -/
theorem where_spec (predicate : α → Bool) (S : List α) :
    (where_ predicate S).traverse.1 = S.filter predicate
    ∧ (where_ predicate S).traverse.1.Sublist S
    ∧ (where_ predicate S).traverse.2.traverse.1 = (where_ predicate S).traverse.1 := by
  refine ⟨whereGen_eq_filter predicate S, ?_, rfl⟩
  rw [show (where_ predicate S).traverse.1 = whereGen predicate S from rfl,
    whereGen_eq_filter]
  exact List.filter_sublist S

/-- C10: `count` agrees with the length of the list produced by `to_list` on
every finite source. -/
theorem count_eq_to_list_length (S : List α) :
    count S = (to_list S).length := by
  rw [count, countAux_eq, to_list]
  omega

/-- C6: `single` and `single_or_none` return the sole element of a
one-element source; on an empty source `single` errors with the
empty-iterable error while `single_or_none` returns `none`; on two or more
elements both error with the more-than-one-element error; and both depend
only on the first two elements of the source (they short-circuit without
full materialization). -/
theorem single_spec (l : List α) :
    (∀ a, l = [a] → single l = .ok a ∧ single_or_none l = .ok (some a))
    ∧ (l = [] → single l = .error .iterableIsEmpty
        ∧ single_or_none l = .ok none)
    ∧ (2 ≤ l.length → single l = .error .moreThanOneElement
        ∧ single_or_none l = .error .moreThanOneElement)
    ∧ single l = single (l.take 2)
    ∧ single_or_none l = single_or_none (l.take 2) := by
  match l with
  | [] => exact ⟨fun a h => by simp at h, fun _ => ⟨rfl, rfl⟩, fun h => by simp at h,
      rfl, rfl⟩
  | [a] =>
    refine ⟨fun b h => ?_, fun h => by simp at h, fun h => by simp at h, rfl, rfl⟩
    obtain rfl : a = b := by simpa using h
    exact ⟨rfl, rfl⟩
  | a :: b :: t =>
    exact ⟨fun c h => by simp at h, fun h => by simp at h, fun _ => ⟨rfl, rfl⟩,
      rfl, rfl⟩

/-- C6 witness: concrete instances of `single_spec` at `[4]`, `[]` and
`[4, 7]`. -/
theorem single_spec_witness :
    (single [4] = .ok 4 ∧ single_or_none [4] = .ok (some 4))
    ∧ (single ([] : List Nat) = .error .iterableIsEmpty
        ∧ single_or_none ([] : List Nat) = .ok none)
    ∧ (single [4, 7] = .error .moreThanOneElement
        ∧ single_or_none [4, 7] = .error .moreThanOneElement) :=
  ⟨(single_spec [4]).1 4 rfl, (single_spec ([] : List Nat)).2.1 rfl,
    (single_spec [4, 7]).2.2.1 (by decide)⟩

/-- C8: `first` returns the head of the source and `last` the final element
(computed by the forward scan `lastAux` retaining the most recently seen
element); on an empty source `first` and `last` error with their
empty-iterable errors while `first_or_none` and `last_or_none` return
`none`. -/
theorem first_last_spec (l : List α) :
    (∀ a t, l = a :: t → first l = .ok a ∧ first_or_none l = some a)
    ∧ (∀ a, l.getLast? = some a → last l = .ok a ∧ last_or_none l = some a)
    ∧ (l = [] → first l = .error .iterableIsEmpty
        ∧ last l = .error .iterableContainsNoElements
        ∧ first_or_none l = none ∧ last_or_none l = none) := by
  match l with
  | [] =>
    exact ⟨fun a t h => by simp at h, fun a h => by simp at h,
      fun _ => ⟨rfl, rfl, rfl, rfl⟩⟩
  | x :: xs =>
    refine ⟨fun a t h => ?_, fun a h => ?_, fun h => by simp at h⟩
    · obtain ⟨rfl, rfl⟩ : x = a ∧ xs = t := by simpa using h
      exact ⟨rfl, rfl⟩
    · have hl : lastAux x xs = a := by
        rw [lastAux_eq_getLast]
        have := List.getLast?_eq_getLast (x :: xs) (by simp)
        rw [this] at h
        exact Option.some_injective _ h
      constructor
      · show Except.ok (lastAux x xs) = _
        rw [hl]
      · show some (lastAux x xs) = _
        rw [hl]

/-- C8 witness: concrete instances of `first_last_spec` at `[4, 7, 2]` and
`[]`. -/
theorem first_last_spec_witness :
    (first [4, 7, 2] = .ok 4 ∧ first_or_none [4, 7, 2] = some 4)
    ∧ (last [4, 7, 2] = .ok 2 ∧ last_or_none [4, 7, 2] = some 2)
    ∧ (first ([] : List Nat) = .error .iterableIsEmpty
        ∧ last ([] : List Nat) = .error .iterableContainsNoElements
        ∧ first_or_none ([] : List Nat) = none
        ∧ last_or_none ([] : List Nat) = none) :=
  ⟨(first_last_spec [4, 7, 2]).1 4 [7, 2] rfl,
    (first_last_spec [4, 7, 2]).2.1 2 (by decide),
    (first_last_spec ([] : List Nat)).2.2 rfl⟩

theorem dictLookup_dictInsert [DecidableEq κ] (k k1 : κ) (v : β) (d : List (κ × β)) :
    dictLookup k (dictInsert k1 v d) = if k1 = k then some v else dictLookup k d := by
  induction d with
  | nil => simp [dictInsert, dictLookup]
  | cons hd rest ih =>
    obtain ⟨k2, v2⟩ := hd
    by_cases h12 : k2 = k1
    · subst h12
      by_cases hk : k2 = k
      · subst hk; simp [dictInsert, dictLookup]
      · simp [dictInsert, dictLookup, hk]
    · by_cases hk : k2 = k
      · subst hk
        have hne : ¬k1 = k2 := fun h => h12 h.symm
        simp [dictInsert, dictLookup, h12, hne]
      · simp [dictInsert, dictLookup, h12, hk, ih]

theorem dictLookup_to_dictionary [DecidableEq κ] (ks : α → κ) (vs : α → β)
    (k : κ) (l : List α) :
    dictLookup k (to_dictionary ks vs l)
      = ((l.filter fun x => decide (ks x = k)).getLast?).map vs := by
  induction l using List.reverseRecOn with
  | nil => simp [to_dictionary, dictLookup]
  | append_singleton t x ih =>
    rw [to_dictionary, List.foldl_append]
    rw [show List.foldl (fun d x => dictInsert (ks x) (vs x) d)
      (List.foldl (fun d x => dictInsert (ks x) (vs x) d) [] t) [x]
      = dictInsert (ks x) (vs x) (to_dictionary ks vs t) from rfl]
    rw [dictLookup_dictInsert]
    by_cases hx : ks x = k
    · simp [List.filter_append, hx, List.getLast?_concat]
    · simp [List.filter_append, hx, ih]

theorem mem_keys_dictInsert [DecidableEq κ] (k0 k : κ) (v : β) (d : List (κ × β)) :
    k0 ∈ (dictInsert k v d).map Prod.fst ↔ k0 = k ∨ k0 ∈ d.map Prod.fst := by
  induction d with
  | nil => simp [dictInsert]
  | cons hd rest ih =>
    obtain ⟨k1, v1⟩ := hd
    by_cases h : k1 = k
    · rw [dictInsert, if_pos h]
      subst h
      simp only [List.map_cons, List.mem_cons]
      tauto
    · rw [dictInsert, if_neg h]
      simp only [List.map_cons, List.mem_cons, ih]
      tauto

theorem nodup_keys_dictInsert [DecidableEq κ] (k : κ) (v : β) (d : List (κ × β))
    (hd : (d.map Prod.fst).Nodup) : ((dictInsert k v d).map Prod.fst).Nodup := by
  induction d with
  | nil => simp [dictInsert]
  | cons hd0 rest ih =>
    obtain ⟨k1, v1⟩ := hd0
    simp only [List.map_cons, List.nodup_cons] at hd
    by_cases h : k1 = k
    · rw [dictInsert, if_pos h]
      subst h
      simp only [List.map_cons, List.nodup_cons]
      exact hd
    · rw [dictInsert, if_neg h]
      simp only [List.map_cons, List.nodup_cons]
      refine ⟨?_, ih hd.2⟩
      rw [mem_keys_dictInsert]
      rintro (rfl | hmem)
      · exact h rfl
      · exact hd.1 hmem

theorem nodup_keys_to_dictionary_aux [DecidableEq κ] (ks : α → κ) (vs : α → β) :
    ∀ (l : List α) (d : List (κ × β)), (d.map Prod.fst).Nodup →
      ((List.foldl (fun d x => dictInsert (ks x) (vs x) d) d l).map Prod.fst).Nodup := by
  intro l
  induction l with
  | nil => intro d hd; simpa using hd
  | cons x t ih =>
    intro d hd
    exact ih _ (nodup_keys_dictInsert _ _ _ hd)

/-- C4: looking up any key `k` in the dictionary built by `to_dictionary`
returns the value selected from the last source element whose selected key is
`k` (last write wins), and nothing when no source element has that key; the
overload without a value selector binds the element itself (identity); and
the resulting dictionary's keys contain no duplicates. -/
theorem to_dictionary_spec [DecidableEq κ] (key_selector : α → κ)
    (value_selector : α → β) (l : List α) (k : κ) :
    dictLookup k (to_dictionary key_selector value_selector l)
      = ((l.filter fun x => decide (key_selector x = k)).getLast?).map value_selector
    ∧ dictLookup k (to_dictionary_id key_selector l)
      = (l.filter fun x => decide (key_selector x = k)).getLast?
    ∧ ((to_dictionary key_selector value_selector l).map Prod.fst).Nodup := by
  refine ⟨dictLookup_to_dictionary _ _ _ _, ?_,
    nodup_keys_to_dictionary_aux _ _ _ _ (by simp)⟩
  have h : to_dictionary_id key_selector l
      = to_dictionary key_selector (fun x => x) l := rfl
  rw [h, dictLookup_to_dictionary]
  simp

theorem distinctGen_sublist [DecidableEq α] (l : List α) :
    ∀ seen, (distinctGen seen l).Sublist l := by
  induction l with
  | nil => intro seen; simp [distinctGen]
  | cons x xs ih =>
    intro seen
    by_cases h : x ∈ seen
    · rw [distinctGen, if_pos h]
      exact (ih seen).trans (List.sublist_cons_self x xs)
    · rw [distinctGen, if_neg h]
      exact List.Sublist.cons₂ x (ih (x :: seen))

theorem mem_distinctGen [DecidableEq α] (l : List α) :
    ∀ (seen : List α) (a : α), a ∈ distinctGen seen l ↔ a ∈ l ∧ a ∉ seen := by
  induction l with
  | nil => intro seen a; simp [distinctGen]
  | cons x xs ih =>
    intro seen a
    by_cases h : x ∈ seen
    · rw [distinctGen, if_pos h, ih]
      constructor
      · rintro ⟨ha, hs⟩
        exact ⟨List.mem_cons_of_mem x ha, hs⟩
      · rintro ⟨ha, hs⟩
        rcases List.mem_cons.mp ha with rfl | ha2
        · exact absurd h hs
        · exact ⟨ha2, hs⟩
    · rw [distinctGen, if_neg h, List.mem_cons, ih]
      simp only [List.mem_cons, not_or]
      constructor
      · rintro (rfl | ⟨ha, hne, hs⟩)
        · exact ⟨Or.inl rfl, h⟩
        · exact ⟨Or.inr ha, hs⟩
      · rintro ⟨rfl | ha, hs⟩
        · exact Or.inl rfl
        · by_cases hax : a = x
          · exact Or.inl hax
          · exact Or.inr ⟨ha, hax, hs⟩

theorem nodup_distinctGen [DecidableEq α] (l : List α) :
    ∀ seen, (distinctGen seen l).Nodup := by
  induction l with
  | nil => intro seen; simp [distinctGen]
  | cons x xs ih =>
    intro seen
    by_cases h : x ∈ seen
    · rw [distinctGen, if_pos h]
      exact ih seen
    · rw [distinctGen, if_neg h]
      refine List.nodup_cons.mpr ⟨?_, ih (x :: seen)⟩
      intro hx
      exact ((mem_distinctGen xs (x :: seen) x).mp hx).2 (List.mem_cons_self x seen)

theorem distinctGen_congr_seen [DecidableEq α] (l : List α) :
    ∀ s1 s2 : List α, (∀ a, a ∈ s1 ↔ a ∈ s2) →
      distinctGen s1 l = distinctGen s2 l := by
  induction l with
  | nil => intro s1 s2 _; rfl
  | cons x xs ih =>
    intro s1 s2 hs
    by_cases h : x ∈ s1
    · rw [distinctGen, if_pos h, distinctGen, if_pos ((hs x).mp h)]
      exact ih s1 s2 hs
    · rw [distinctGen, if_neg h, distinctGen, if_neg (fun h2 => h ((hs x).mpr h2))]
      have hcons : ∀ a, a ∈ x :: s1 ↔ a ∈ x :: s2 := by
        intro a
        simp only [List.mem_cons]
        exact or_congr Iff.rfl (hs a)
      rw [ih (x :: s1) (x :: s2) hcons]

theorem distinctGen_cons_seen [DecidableEq α] (x : α) (l : List α) :
    ∀ seen, distinctGen (x :: seen) l
      = distinctGen seen (l.filter fun y => decide (y ≠ x)) := by
  induction l with
  | nil => intro seen; rfl
  | cons y ys ih =>
    intro seen
    by_cases hyx : y = x
    · subst hyx
      rw [distinctGen, if_pos (List.mem_cons_self y seen),
        List.filter_cons_of_neg (by simp)]
      exact ih seen
    · rw [List.filter_cons_of_pos (by simp [hyx])]
      by_cases hys : y ∈ seen
      · rw [distinctGen, if_pos (List.mem_cons_of_mem x hys), distinctGen, if_pos hys]
        exact ih seen
      · have hyxs : y ∉ x :: seen := by
          simp only [List.mem_cons, not_or]
          exact ⟨hyx, hys⟩
        rw [distinctGen, if_neg hyxs, distinctGen, if_neg hys]
        have hswap : distinctGen (y :: x :: seen) ys = distinctGen (x :: y :: seen) ys := by
          refine distinctGen_congr_seen ys _ _ ?_
          intro a
          simp only [List.mem_cons]
          tauto
        rw [hswap, ih (y :: seen)]

/-- C7: a traversal of `distinct` yields each element value exactly once
(no duplicates), as a sublist of the source (order preserved), containing
exactly the values of the source; each value appears at its first occurrence
(the head is yielded and all of its later duplicates are suppressed before
the rest is processed); and a second traversal of the same wrapper — whose
`seen` set is rebuilt from scratch — yields the identical list. -/
theorem distinct_spec [DecidableEq α] (l : List α) :
    ((distinct l).traverse.1).Nodup
    ∧ ((distinct l).traverse.1).Sublist l
    ∧ (∀ x, x ∈ (distinct l).traverse.1 ↔ x ∈ l)
    ∧ (∀ (x : α) (xs : List α),
        (distinct (x :: xs)).traverse.1
          = x :: (distinct (xs.filter fun y => decide (y ≠ x))).traverse.1)
    ∧ (distinct l).traverse.2.traverse.1 = (distinct l).traverse.1 := by
  refine ⟨nodup_distinctGen l [], distinctGen_sublist l [], ?_, ?_, rfl⟩
  · intro x
    rw [show (distinct l).traverse.1 = distinctGen [] l from rfl, mem_distinctGen]
    simp
  · intro x xs
    show distinctGen [] (x :: xs) = x :: distinctGen [] (xs.filter _)
    rw [distinctGen, if_neg (List.not_mem_nil x), distinctGen_cons_seen]

theorem whereRun_append_error (p : α → Except ε Bool) (x : α) (e : ε)
    (hpx : p x = .error e) :
    ∀ (pre post : List α), (∀ y ∈ pre, ∃ b, p y = .ok b) →
      whereRun p (pre ++ x :: post) = ((whereRun p pre).1, some e) := by
  intro pre
  induction pre with
  | nil =>
    intro post _
    simp only [List.nil_append, whereRun, hpx]
  | cons y t ih =>
    intro post hp
    obtain ⟨b, hb⟩ := hp y (List.mem_cons_self y t)
    have ht : ∀ z ∈ t, ∃ b, p z = .ok b :=
      fun z hz => hp z (List.mem_cons_of_mem y hz)
    simp only [List.cons_append, whereRun, hb, List.append_eq, ih post ht]

theorem selectRun_append_error (f : α → Except ε β) (x : α) (e : ε)
    (hfx : f x = .error e) :
    ∀ (pre post : List α), (∀ y ∈ pre, ∃ z, f y = .ok z) →
      selectRun f (pre ++ x :: post) = ((selectRun f pre).1, some e) := by
  intro pre
  induction pre with
  | nil =>
    intro post _
    simp only [List.nil_append, selectRun, hfx]
  | cons y t ih =>
    intro post hf
    obtain ⟨z, hz⟩ := hf y (List.mem_cons_self y t)
    have ht : ∀ w ∈ t, ∃ z, f w = .ok z :=
      fun w hw => hf w (List.mem_cons_of_mem y hw)
    simp only [List.cons_append, selectRun, hz, List.append_eq, ih post ht]

/-- C9: when a caller-supplied predicate (for `where`) or selector (for
`select`) raises on element `x` after a prefix `pre` on which it succeeds,
the traversal yields exactly what it had yielded over `pre`, then aborts
with that very failure — unchanged, not caught, and with the failing element
never silently skipped — regardless of the elements after `x`. -/
theorem user_error_propagation (p : α → Except ε Bool) (f : α → Except ε2 β)
    (pre post : List α) (x : α) (e : ε) (e2 : ε2)
    (hp : ∀ y ∈ pre, ∃ b, p y = .ok b) (hpx : p x = .error e)
    (hf : ∀ y ∈ pre, ∃ z, f y = .ok z) (hfx : f x = .error e2) :
    whereRun p (pre ++ x :: post) = ((whereRun p pre).1, some e)
    ∧ selectRun f (pre ++ x :: post) = ((selectRun f pre).1, some e2) :=
  ⟨whereRun_append_error p x e hpx pre post hp,
    selectRun_append_error f x e2 hfx pre post hf⟩

/-- C9 witness: a concrete instance of `user_error_propagation` with a
predicate and a selector over `Nat` that both raise on the element `2`. -/
theorem user_error_propagation_witness :
    whereRun (fun n => if n < 2 then Except.ok (decide (n > 0)) else Except.error 99)
        ([0, 1] ++ 2 :: [3])
      = ((whereRun
          (fun n => if n < 2 then Except.ok (decide (n > 0)) else Except.error 99)
          [0, 1]).1, some 99)
    ∧ selectRun (fun n => if n < 2 then Except.ok (n * 10) else Except.error 77)
        ([0, 1] ++ 2 :: [3])
      = ((selectRun
          (fun n => if n < 2 then Except.ok (n * 10) else Except.error 77)
          [0, 1]).1, some 77) :=
  user_error_propagation
    (fun n => if n < 2 then Except.ok (decide (n > 0)) else Except.error 99)
    (fun n => if n < 2 then Except.ok (n * 10) else Except.error 77)
    [0, 1] [3] 2 99 77
    (by
      intro y hy
      fin_cases hy
      · exact ⟨false, rfl⟩
      · exact ⟨true, rfl⟩)
    rfl
    (by
      intro y hy
      fin_cases hy
      · exact ⟨0, rfl⟩
      · exact ⟨10, rfl⟩)
    rfl

theorem insertSortedBy_perm (le : α → α → Bool) (x : α) (l : List α) :
    (insertSortedBy le x l).Perm (x :: l) := by
  induction l with
  | nil => exact List.Perm.refl _
  | cons y ys ih =>
    by_cases h : le x y = true
    · rw [insertSortedBy, if_pos h]
    · rw [insertSortedBy, if_neg h]
      exact (List.Perm.cons y ih).trans (List.Perm.swap x y ys)

theorem sortBy_perm (le : α → α → Bool) (l : List α) : (sortBy le l).Perm l := by
  induction l with
  | nil => exact List.Perm.refl _
  | cons x xs ih =>
    exact (insertSortedBy_perm le x (sortBy le xs)).trans (List.Perm.cons x ih)

theorem insertSortedBy_pairwise (le : α → α → Bool)
    (htot : ∀ a b, le a b = false → le b a = true)
    (htrans : ∀ a b c, le a b = true → le b c = true → le a c = true)
    (x : α) (l : List α) (hl : l.Pairwise fun a b => le a b = true) :
    (insertSortedBy le x l).Pairwise fun a b => le a b = true := by
  induction l with
  | nil => simp [insertSortedBy]
  | cons y ys ih =>
    rcases List.pairwise_cons.mp hl with ⟨hy, hys⟩
    by_cases h : le x y = true
    · rw [insertSortedBy, if_pos h]
      refine List.pairwise_cons.mpr ⟨?_, hl⟩
      intro b hb
      rcases List.mem_cons.mp hb with rfl | hb2
      · exact h
      · exact htrans x y b h (hy b hb2)
    · rw [insertSortedBy, if_neg h]
      refine List.pairwise_cons.mpr ⟨?_, ih hys⟩
      intro b hb
      have hmem := (insertSortedBy_perm le x ys).mem_iff.mp hb
      rcases List.mem_cons.mp hmem with rfl | hb2
      · exact htot _ _ (by simpa using h)
      · exact hy b hb2

theorem sortBy_pairwise (le : α → α → Bool)
    (htot : ∀ a b, le a b = false → le b a = true)
    (htrans : ∀ a b c, le a b = true → le b c = true → le a c = true)
    (l : List α) :
    (sortBy le l).Pairwise fun a b => le a b = true := by
  induction l with
  | nil => simp [sortBy]
  | cons x xs ih => exact insertSortedBy_pairwise le htot htrans x _ ih

theorem insertSortedBy_filter_neg (le : α → α → Bool) (p : α → Bool) (x : α)
    (hx : p x = false) (l : List α) :
    (insertSortedBy le x l).filter p = l.filter p := by
  induction l with
  | nil => simp [insertSortedBy, hx]
  | cons y ys ih =>
    by_cases h : le x y = true
    · rw [insertSortedBy, if_pos h]
      simp [List.filter_cons, hx]
    · rw [insertSortedBy, if_neg h]
      simp [List.filter_cons, ih]

theorem insertSortedBy_filter_pos (le : α → α → Bool) (p : α → Bool) (x : α)
    (hx : p x = true) (hcut : ∀ y, le x y = false → p y = false) (l : List α) :
    (insertSortedBy le x l).filter p = x :: l.filter p := by
  induction l with
  | nil => simp [insertSortedBy, hx]
  | cons y ys ih =>
    by_cases h : le x y = true
    · rw [insertSortedBy, if_pos h]
      simp [List.filter_cons, hx]
    · rw [insertSortedBy, if_neg h]
      have hy : p y = false := hcut y (by simpa using h)
      simp [List.filter_cons, hy, ih]

theorem sortBy_filter (le : α → α → Bool) (p : α → Bool)
    (hcut : ∀ x y, p x = true → le x y = false → p y = false) (l : List α) :
    (sortBy le l).filter p = l.filter p := by
  induction l with
  | nil => rfl
  | cons x xs ih =>
    by_cases hx : p x = true
    · rw [show sortBy le (x :: xs) = insertSortedBy le x (sortBy le xs) from rfl,
        insertSortedBy_filter_pos le p x hx (fun y h => hcut x y hx h), ih]
      simp [List.filter_cons, hx]
    · have hx2 : p x = false := by simpa using hx
      rw [show sortBy le (x :: xs) = insertSortedBy le x (sortBy le xs) from rfl,
        insertSortedBy_filter_neg le p x hx2, ih]
      simp [List.filter_cons, hx2]

theorem order_by_pairwise [LinearOrder κ] (key : α → κ) (l : List α) :
    (order_by key l).Pairwise fun a b => key a ≤ key b := by
  have h := sortBy_pairwise (fun a b => decide (key a ≤ key b))
    (fun a b hab => by
      simp only [decide_eq_false_iff_not] at hab
      simpa using le_of_not_le hab)
    (fun a b c hab hbc => by
      simp only [decide_eq_true_eq] at hab hbc ⊢
      exact le_trans hab hbc) l
  exact h.imp fun hab => by simpa using hab

theorem order_by_descending_pairwise [LinearOrder κ] (key : α → κ) (l : List α) :
    (order_by_descending key l).Pairwise fun a b => key b ≤ key a := by
  have h := sortBy_pairwise (fun a b => decide (key b ≤ key a))
    (fun a b hab => by
      simp only [decide_eq_false_iff_not] at hab
      simpa using le_of_not_le hab)
    (fun a b c hab hbc => by
      simp only [decide_eq_true_eq] at hab hbc ⊢
      exact le_trans hbc hab) l
  exact h.imp fun hab => by simpa using hab

theorem order_by_filter [LinearOrder κ] (key : α → κ) (l : List α) (k : κ) :
    (order_by key l).filter (fun z => decide (key z = k))
      = l.filter fun z => decide (key z = k) := by
  refine sortBy_filter _ _ ?_ l
  intro x y hx hxy
  simp only [decide_eq_true_eq] at hx
  simp only [decide_eq_false_iff_not] at hxy
  simp only [decide_eq_false_iff_not]
  intro hy
  exact hxy (le_of_eq (hx.trans hy.symm))

theorem order_by_descending_filter [LinearOrder κ] (key : α → κ) (l : List α) (k : κ) :
    (order_by_descending key l).filter (fun z => decide (key z = k))
      = l.filter fun z => decide (key z = k) := by
  refine sortBy_filter _ _ ?_ l
  intro x y hx hxy
  simp only [decide_eq_true_eq] at hx
  simp only [decide_eq_false_iff_not] at hxy
  simp only [decide_eq_false_iff_not]
  intro hy
  exact hxy (le_of_eq (hy.trans hx.symm))

/-- C3: `order_by` returns an ascending sort of the source (a permutation
sorted by the key) that is stable: for every key value, the elements with
that key appear exactly as they do in the source.  `order_by_descending`
returns the stable sort under the reversed comparator: sorted descending,
a permutation of the source, and elements with equal keys likewise retain
their original source order (not the reversed order). -/
theorem order_by_spec [LinearOrder κ] (key_selector : α → κ) (l : List α) :
    (order_by key_selector l).Pairwise
        (fun a b => key_selector a ≤ key_selector b)
    ∧ (order_by key_selector l).Perm l
    ∧ (∀ k, (order_by key_selector l).filter (fun z => decide (key_selector z = k))
        = l.filter fun z => decide (key_selector z = k))
    ∧ (order_by_descending key_selector l).Pairwise
        (fun a b => key_selector b ≤ key_selector a)
    ∧ (order_by_descending key_selector l).Perm l
    ∧ (∀ k, (order_by_descending key_selector l).filter
          (fun z => decide (key_selector z = k))
        = l.filter fun z => decide (key_selector z = k)) :=
  ⟨order_by_pairwise key_selector l, sortBy_perm _ l,
    order_by_filter key_selector l,
    order_by_descending_pairwise key_selector l, sortBy_perm _ l,
    order_by_descending_filter key_selector l⟩

theorem groupRunsAux_spec [LinearOrder κ] (key : α → κ) (l : List α) :
    ∀ (k : κ) (run : List α),
      l.Pairwise (fun a b => key a ≤ key b) →
      (∀ y ∈ l, k ≤ key y) →
      run ≠ [] →
      (∀ y ∈ run, key y = k) →
      (((groupRunsAux key k run l).map Grouping.source).flatten = run.reverse ++ l)
      ∧ (∀ g ∈ groupRunsAux key k run l,
          g.source ≠ [] ∧ (∀ y ∈ g.source, key y = g.key)
          ∧ g.source = (run.reverse ++ l).filter fun z => decide (key z = g.key))
      ∧ ((groupRunsAux key k run l).map Grouping.key).Pairwise (· < ·)
      ∧ (∀ c ∈ (groupRunsAux key k run l).map Grouping.key, k ≤ c) := by
  induction l with
  | nil =>
    intro k run _ _ hrun hrunk
    refine ⟨by simp [groupRunsAux], ?_, by simp [groupRunsAux],
      by simp [groupRunsAux]⟩
    intro g hg
    simp only [groupRunsAux, List.mem_singleton] at hg
    subst hg
    refine ⟨?_, ?_, ?_⟩
    · show run.reverse ≠ []
      simpa using hrun
    · intro y hy
      exact hrunk y (List.mem_reverse.mp hy)
    · show run.reverse = (run.reverse ++ []).filter fun z => decide (key z = k)
      rw [List.append_nil]
      symm
      rw [List.filter_eq_self]
      intro a ha
      simp [hrunk a (List.mem_reverse.mp ha)]
  | cons x xs ih =>
    intro k run hs hkl hrun hrunk
    rcases List.pairwise_cons.mp hs with ⟨hx, hxs⟩
    by_cases hxk : key x = k
    · rw [groupRunsAux, if_pos hxk]
      have h1 : ∀ y ∈ xs, k ≤ key y :=
        fun y hy => le_trans (le_of_eq hxk.symm) (hx y hy)
      have h2 : (x :: run) ≠ [] := by simp
      have h3 : ∀ y ∈ x :: run, key y = k := by
        intro y hy
        rcases List.mem_cons.mp hy with rfl | hy2
        · exact hxk
        · exact hrunk y hy2
      have hmain := ih k (x :: run) hxs h1 h2 h3
      have hr : (x :: run).reverse ++ xs = run.reverse ++ x :: xs := by
        simp [List.reverse_cons, List.append_assoc]
      rw [hr] at hmain
      exact hmain
    · have hkx : k < key x :=
        lt_of_le_of_ne (hkl x (List.mem_cons_self x xs)) (fun h => hxk h.symm)
      rw [groupRunsAux, if_neg hxk]
      have h2 : ([x] : List α) ≠ [] := by simp
      have h3 : ∀ y ∈ ([x] : List α), key y = key x := by
        intro y hy
        rcases List.mem_singleton.mp hy with rfl
        rfl
      obtain ⟨ja, jb, jc, jd⟩ := ih (key x) [x] hxs hx h2 h3
      have hrw : ([x] : List α).reverse ++ xs = x :: xs := by simp
      rw [hrw] at ja jb
      refine ⟨?_, ?_, ?_, ?_⟩
      · simp only [List.map_cons, List.flatten_cons, ja]
      · intro g hg
        rcases List.mem_cons.mp hg with rfl | hg2
        · refine ⟨?_, ?_, ?_⟩
          · show run.reverse ≠ []
            simpa using hrun
          · intro y hy
            exact hrunk y (List.mem_reverse.mp hy)
          · show run.reverse = (run.reverse ++ x :: xs).filter fun z => decide (key z = k)
            rw [List.filter_append]
            have hA : run.reverse.filter (fun z => decide (key z = k)) = run.reverse := by
              rw [List.filter_eq_self]
              intro a ha
              simp [hrunk a (List.mem_reverse.mp ha)]
            have hB : (x :: xs).filter (fun z => decide (key z = k)) = [] := by
              rw [List.filter_eq_nil_iff]
              intro a ha
              rcases List.mem_cons.mp ha with rfl | ha2
              · simp only [decide_eq_true_eq]
                exact hxk
              · simp only [decide_eq_true_eq]
                exact ne_of_gt (lt_of_lt_of_le hkx (hx a ha2))
            rw [hA, hB, List.append_nil]
        · obtain ⟨h1g, h2g, h3g⟩ := jb g hg2
          refine ⟨h1g, h2g, ?_⟩
          rw [h3g]
          have hrunnil : run.reverse.filter (fun z => decide (key z = g.key)) = [] := by
            rw [List.filter_eq_nil_iff]
            intro a ha
            have hak : key a = k := hrunk a (List.mem_reverse.mp ha)
            have hgk : key x ≤ g.key := jd g.key (List.mem_map_of_mem Grouping.key hg2)
            simp only [decide_eq_true_eq, hak]
            exact ne_of_lt (lt_of_lt_of_le hkx hgk)
          rw [List.filter_append, hrunnil, List.nil_append]
      · simp only [List.map_cons]
        refine List.pairwise_cons.mpr ⟨?_, jc⟩
        intro c hc
        exact lt_of_lt_of_le hkx (jd c hc)
      · simp only [List.map_cons]
        intro c hc
        rcases List.mem_cons.mp hc with rfl | hc2
        · exact le_refl _
        · exact le_trans (le_of_lt hkx) (jd c hc2)

theorem groupRuns_sorted_spec [LinearOrder κ] (key : α → κ) (s : List α)
    (hs : s.Pairwise fun a b => key a ≤ key b) :
    (((groupRuns key s).map Grouping.source).flatten = s)
    ∧ (∀ g ∈ groupRuns key s, g.source ≠ []
        ∧ (∀ y ∈ g.source, key y = g.key)
        ∧ g.source = s.filter fun z => decide (key z = g.key))
    ∧ ((groupRuns key s).map Grouping.key).Pairwise (· < ·) := by
  match s with
  | [] => exact ⟨rfl, by simp [groupRuns], by simp [groupRuns]⟩
  | x :: xs =>
    rcases List.pairwise_cons.mp hs with ⟨hx, hxs⟩
    obtain ⟨ja, jb, jc, _⟩ := groupRunsAux_spec key xs (key x) [x] hxs hx
      (by simp)
      (by
        intro y hy
        rcases List.mem_singleton.mp hy with rfl
        rfl)
    have hrw : ([x] : List α).reverse ++ xs = x :: xs := by simp
    rw [hrw] at ja jb
    rw [groupRuns]
    exact ⟨ja, jb, jc⟩

/-- C2: the traversal of `group_by` emits groupings in strictly ascending
key order; each grouping is nonempty, all of its members have the grouping's
key, and its materialized list is exactly the source's elements with that
key in their original source order (the stable-sort tie order); and the
concatenation of all groupings is the stable ascending sort of the source —
a permutation of the full materialization of the source. -/
theorem group_by_spec [LinearOrder κ] (key_selector : α → κ) (l : List α) :
    (((group_by key_selector l).traverse.1).map Grouping.key).Pairwise (· < ·)
    ∧ (∀ g ∈ (group_by key_selector l).traverse.1,
        g.source ≠ []
        ∧ (∀ y ∈ g.source, key_selector y = g.key)
        ∧ g.source = l.filter fun z => decide (key_selector z = g.key))
    ∧ (((group_by key_selector l).traverse.1).map Grouping.source).flatten
        = order_by key_selector l
    ∧ ((((group_by key_selector l).traverse.1).map Grouping.source).flatten).Perm l := by
  have hs := order_by_pairwise key_selector l
  obtain ⟨ja, jb, jc⟩ := groupRuns_sorted_spec key_selector (order_by key_selector l) hs
  have htr : (group_by key_selector l).traverse.1
      = groupRuns key_selector (order_by key_selector l) := rfl
  refine ⟨?_, ?_, ?_, ?_⟩
  · rw [htr]
    exact jc
  · rw [htr]
    intro g hg
    obtain ⟨h1, h2, h3⟩ := jb g hg
    exact ⟨h1, h2, h3.trans (order_by_filter key_selector l g.key)⟩
  · rw [htr]
    exact ja
  · rw [htr, ja]
    exact sortBy_perm _ l

/-- C2 witness: `group_by` on six elements with keys `[10,10,20,30,30,30]`
produces the three groups with keys `10`, `20`, `30` in that order and sizes
`2`, `1`, `3`; `group_by_spec` is applied to the group with key `10`, whose
members are the source elements with key `10` in original order. -/
theorem group_by_spec_witness :
    ((group_by Prod.fst
        [((10 : Nat), (0 : Nat)), (10, 1), (20, 2), (30, 3), (30, 4), (30, 5)]).traverse.1
      = [Grouping.mk 10 [(10, 0), (10, 1)], Grouping.mk 20 [(20, 2)],
          Grouping.mk 30 [(30, 3), (30, 4), (30, 5)]])
    ∧ (Grouping.mk (10 : Nat) [((10 : Nat), (0 : Nat)), (10, 1)]).source
        = [((10 : Nat), (0 : Nat)), (10, 1), (20, 2), (30, 3), (30, 4), (30, 5)].filter
            fun z => decide (z.1 = 10) :=
  ⟨by decide,
    ((group_by_spec Prod.fst
        [((10 : Nat), (0 : Nat)), (10, 1), (20, 2), (30, 3), (30, 4), (30, 5)]).2.1
      (Grouping.mk 10 [(10, 0), (10, 1)]) (by decide)).2.2⟩

end IterableExtensions
